import Mathlib

/-
Verification of the per-frame pedestrian tracking pipeline implemented in
`peddetect/backend/app.py` (`_detect_and_annotate`).

Embedding notes.
* Pixel coordinates, thresholds and displacement values are modelled in ℚ.
  The source computes distances with `np.linalg.norm(center - track["position"])`,
  an IEEE-754 Euclidean norm whose square root is in general irrational, so the
  metric is abstracted as an explicit parameter `d : Point → Point → ℚ` threaded
  through the association engine; every theorem below is proved for an arbitrary
  `d`, hence in particular for the Euclidean one.  Concrete instantiations in
  witnesses use `dL1`, the taxicab metric, which is rational-valued and agrees
  with the Euclidean norm on axis-aligned displacements.
* A `Cand` carries a ghost field `tag` (the index of its detection in the
  frame's detection list).  The association code never reads it; it only gives
  candidates an identity so that one-to-one matching can be stated.
* A video is abstracted as the list of per-frame detection lists (the HOG
  detector is an opaque black box per the spec); frame pixels, drawing and
  encoding are side effects with no influence on tracking state or the summary.
-/

namespace PedDetect

/-- Constant `MAX_REPORTED_FRAMES = 50` (app.py line 21). -/
def MAX_REPORTED_FRAMES : ℕ := 50

/-- Constant `TRACK_DISTANCE_THRESHOLD = 80.0` (app.py line 22). -/
def TRACK_DISTANCE_THRESHOLD : ℚ := 80

/-- Constant `TRACK_MAX_MISSES = 10` (app.py line 23). -/
def TRACK_MAX_MISSES : ℕ := 10

/-- Constant `SLOW_SPEED_THRESHOLD = 60.0` (app.py line 24). -/
def SLOW_SPEED_THRESHOLD : ℚ := 60

/-- Constant `FAST_SPEED_THRESHOLD = 150.0` (app.py line 25). -/
def FAST_SPEED_THRESHOLD : ℚ := 150

/-- A detection bounding box `{"x", "y", "w", "h"}` (app.py line 121). -/
structure Det where
  x : ℕ
  y : ℕ
  w : ℕ
  h : ℕ
deriving DecidableEq

/-- A point in floating-point pixel space, modelled over ℚ. -/
abbrev Point : Type := ℚ × ℚ

/-- Centroid of a box: `np.array([float(x + w / 2), float(y + h / 2)])`
(app.py line 119); `w / 2` is Python true division. -/
def centroid (b : Det) : Point :=
  ((b.x : ℚ) + (b.w : ℚ) / 2, (b.y : ℚ) + (b.h : ℚ) / 2)

/-- A track dict `{"position", "velocity_samples", "misses", "last_detection"}`
(app.py lines 163-170).  `last_detection` is an `Option` to model the
annotator's defensive `if not det: continue` test (app.py lines 176-178). -/
structure Track where
  position : Point
  velocity_samples : List ℚ
  misses : ℕ
  last_detection : Option Det
deriving DecidableEq

/-- An entry of `unmatched_centers = list(zip(frame_detections, centers))`
(app.py line 137), extended with the ghost identity `tag` (the detection's
index in the frame), used only to state one-to-one matching. -/
structure Cand where
  tag : ℕ
  det : Det
  center : Point
deriving DecidableEq

/-- The abstracted distance metric (source: `np.linalg.norm`, see header). -/
abbrev Dist : Type := Point → Point → ℚ

/-- The taxicab metric: a concrete rational-valued instance of `Dist` used in
witnesses; it equals the source's Euclidean norm on axis-aligned displacements. -/
def dL1 : Dist := fun p q => |p.1 - q.1| + |p.2 - q.2|

/-- The inner candidate scan (app.py lines 140-146): iterate over the pool with
index, keeping the strictly smallest distance; on ties the earlier candidate is
kept (`distance < best_distance`).  Returns `(index into the pool, candidate,
its distance)`, or `none` when the pool is empty (`best_match = None`). -/
def bestMatch (d : Dist) (pos : Point) : List Cand → Option (ℕ × Cand × ℚ)
  | [] => none
  | c :: rest =>
    match bestMatch d pos rest with
    | none => some (0, c, d c.center pos)
    | some (j, b, db) =>
      if db < d c.center pos then some (j + 1, b, db) else some (0, c, d c.center pos)

/-- The unmatched branch (app.py lines 157-160): `track["misses"] += 1`, and the
track is retained only when `track["misses"] <= TRACK_MAX_MISSES`. -/
def agedTrack (t : Track) : Option Track :=
  if t.misses + 1 ≤ TRACK_MAX_MISSES then some { t with misses := t.misses + 1 } else none

/-- Processing of one existing track against the pool (app.py lines 139-160):
if the minimum-distance candidate exists and its distance is within
`TRACK_DISTANCE_THRESHOLD`, commit the match (new position, appended
displacement, misses reset, `last_detection` overwritten, candidate popped);
otherwise age the track.  Returns the surviving track (if any) and the pool
left for the following tracks. -/
def stepTrack (d : Dist) (t : Track) (pool : List Cand) : Option Track × List Cand :=
  match bestMatch d t.position pool with
  | some (idx, c, dist) =>
    if dist ≤ TRACK_DISTANCE_THRESHOLD then
      (some { position := c.center,
              velocity_samples := t.velocity_samples ++ [d c.center t.position],
              misses := 0,
              last_detection := some c.det }, pool.eraseIdx idx)
    else (agedTrack t, pool)
  | none => (agedTrack t, pool)

/-- A new track spawned from a never-matched candidate (app.py lines 162-170). -/
def newTrack (c : Cand) : Track :=
  { position := c.center, velocity_samples := [], misses := 0, last_detection := some c.det }

/-- The association engine (app.py lines 136-172): fold `stepTrack` over the
existing tracks in iteration order, threading the candidate pool, collecting
survivors in order; afterwards every remaining candidate spawns a new track. -/
def associate (d : Dist) : List Track → List Cand → List Track
  | [], pool => pool.map newTrack
  | t :: ts, pool =>
    match stepTrack d t pool with
    | (some t', pool') => t' :: associate d ts pool'
    | (none, pool') => associate d ts pool'

/-- Ghost observation of `associate`: the tags claimed by matched tracks, in
track iteration order, mirroring the match condition of `stepTrack` exactly. -/
def claimedTags (d : Dist) : List Track → List Cand → List ℕ
  | [], _ => []
  | t :: ts, pool =>
    match bestMatch d t.position pool with
    | some (idx, c, dist) =>
      if dist ≤ TRACK_DISTANCE_THRESHOLD then c.tag :: claimedTags d ts (pool.eraseIdx idx)
      else claimedTags d ts pool
    | none => claimedTags d ts pool

/-- The `avg_speed` value of the motion classifier (app.py lines 184-186):
`avg_speed = 0.0`, replaced by `float(np.mean(track["velocity_samples"]))` when
the list is non-empty. -/
def avgSpeed (velocity_samples : List ℚ) : ℚ :=
  if velocity_samples.isEmpty then 0
  else velocity_samples.sum / (velocity_samples.length : ℚ)

/-- The motion classifier's label (app.py lines 188-193): `"fast"` when
`avg_speed >= FAST_SPEED_THRESHOLD`, else `"slow"` when
`avg_speed <= SLOW_SPEED_THRESHOLD`, else `"normal"`. -/
def speedLabel (velocity_samples : List ℚ) : String :=
  if FAST_SPEED_THRESHOLD ≤ avgSpeed velocity_samples then "fast"
  else if avgSpeed velocity_samples ≤ SLOW_SPEED_THRESHOLD then "slow"
  else "normal"

/-- The annotator (app.py lines 175-212), abstracted to its observable output:
the list of (box, label) pairs drawn.  A track whose `last_detection` is absent
is skipped (`if not det: continue`). -/
def annotate (tracks : List Track) : List (Det × String) :=
  tracks.filterMap fun t =>
    match t.last_detection with
    | none => none
    | some det => some (det, speedLabel t.velocity_samples)

/-- One entry of `reported_frames` (app.py lines 127-133). -/
structure FrameReport where
  frame_index : ℕ
  count : ℕ
  boxes : List Det
deriving DecidableEq

/-- The loop state of `_detect_and_annotate` (app.py lines 96-101). -/
structure RunState where
  total_frames : ℕ
  frames_with_detections : ℕ
  total_detections : ℕ
  reported_frames : List FrameReport
  tracks : List Track
deriving DecidableEq

/-- The initial loop state (app.py lines 96-101): all counters zero, no
reports, empty track store. -/
def initState : RunState :=
  { total_frames := 0, frames_with_detections := 0, total_detections := 0,
    reported_frames := [], tracks := [] }

/-- Build the candidate pool from a frame's detections (app.py lines 116-121
and 137): each detection paired with its centroid, tagged by its index. -/
def mkCands (dets : List Det) : List Cand :=
  dets.enum.map fun p => { tag := p.1, det := p.2, center := centroid p.2 }

/-- One iteration of the frame loop (app.py lines 104-216), with the frame
abstracted as its detection list: update the summary counters and (below the
report cap) append a `FrameReport` when the frame has detections; run the
association engine only when `centers` is non-empty (`if centers:` at line
135); finally increment `total_frames`. -/
def processFrame (d : Dist) (s : RunState) (dets : List Det) : RunState :=
  let s1 : RunState :=
    if dets.isEmpty then s
    else
      { s with
        frames_with_detections := s.frames_with_detections + 1,
        total_detections := s.total_detections + dets.length,
        reported_frames :=
          if s.reported_frames.length < MAX_REPORTED_FRAMES then
            s.reported_frames ++
              [{ frame_index := s.total_frames, count := dets.length, boxes := dets }]
          else s.reported_frames }
  let tracks' : List Track :=
    if dets.isEmpty then s1.tracks else associate d s1.tracks (mkCands dets)
  { s1 with tracks := tracks', total_frames := s1.total_frames + 1 }

/-- The frame loop: fold `processFrame` over the decoded frames. -/
def runLoop (d : Dist) (s : RunState) (frames : List (List Det)) : RunState :=
  frames.foldl (processFrame d) s

/-- The summary dict returned by `_detect_and_annotate` (app.py lines 225-230). -/
structure RunSummary where
  total_frames : ℕ
  frames_with_detections : ℕ
  total_detections : ℕ
  reported_frames : List FrameReport
deriving DecidableEq

/-- `_detect_and_annotate` after decoding succeeded (app.py lines 96-230): run
the frame loop from the empty state; if `total_frames` ended at 0 raise
`ValueError` (modelled as `Except.error` with the source's message), otherwise
return the summary. -/
def detectAndAnnotate (d : Dist) (frames : List (List Det)) : Except String RunSummary :=
  let s : RunState := runLoop d initState frames
  if s.total_frames = 0 then
    Except.error "No frames detected; the uploaded file may be corrupted."
  else
    Except.ok
      { total_frames := s.total_frames, frames_with_detections := s.frames_with_detections,
        total_detections := s.total_detections, reported_frames := s.reported_frames }

/-- Example box with centroid `(10, 0)`, used in concrete instantiations. -/
def exBox : Det := { x := 0, y := 0, w := 20, h := 0 }

/-- Example track at position `(60, 0)`: taxicab distance 50 to `centroid exBox`. -/
def trkA : Track :=
  { position := (60, 0), velocity_samples := [], misses := 0,
    last_detection := some { x := 1, y := 1, w := 1, h := 1 } }

/-- Example track at position `(20, 0)`: taxicab distance 10 to `centroid exBox`,
closer than `trkA` but iterated after it. -/
def trkB : Track :=
  { position := (20, 0), velocity_samples := [], misses := 0,
    last_detection := some { x := 2, y := 2, w := 2, h := 2 } }

/-- C1 counterexample: a frame with zero detections does NOT age the store.
With one stored track whose `misses` is 0, the claim predicts every track's
`misses` becomes 1; the code's `if centers:` guard skips the association block,
so the track still has `misses = 0` after the frame. -/
theorem frame_no_detections_cex :
    (processFrame dL1 { initState with tracks := [trkA] } []).tracks.map Track.misses = [0]
    ∧ ([0] : List ℕ) ≠ [1] := by
  exact ⟨rfl, by decide⟩

/-- C1 (amended): for every frame with zero detections the association block is
skipped entirely (`if centers:` at app.py line 135): the track store is
returned unchanged — no `misses` increments and no evictions — and the whole
loop state is unchanged apart from the `total_frames` increment. -/
theorem frame_no_detections_skips_association (d : Dist) (s : RunState) :
    (processFrame d s []).tracks = s.tracks
    ∧ processFrame d s [] = { s with total_frames := s.total_frames + 1 } := by
  exact ⟨rfl, rfl⟩

/-- C2 counterexample: with empty `velocity_samples` the classifier returns
`"slow"`, not `"normal"`: `avg_speed` defaults to 0.0 and the code tests
`avg_speed <= SLOW_SPEED_THRESHOLD` before falling through to `"normal"`. -/
theorem speedLabel_nil_cex : speedLabel [] = "slow" ∧ "slow" ≠ "normal" := by
  exact ⟨rfl, by decide⟩

/-- C2 (amended): a track with empty `velocity_samples` (first frame of its
existence) is labelled `"slow"`, because `avg_speed` defaults to 0.0 and
`0.0 <= SLOW_SPEED_THRESHOLD` holds. -/
theorem speedLabel_nil : speedLabel [] = "slow" ∧ avgSpeed [] = 0 := by
  exact ⟨rfl, rfl⟩

/-- C3: for non-empty `velocity_samples` the label is `"fast"` iff the mean is
at least `FAST_SPEED_THRESHOLD` (inclusive), `"slow"` iff the mean is at most
`SLOW_SPEED_THRESHOLD` (inclusive), and `"normal"` iff the mean lies strictly
between the two thresholds. -/
theorem speedLabel_thresholds (vs : List ℚ) (h : vs ≠ []) :
    (speedLabel vs = "fast" ↔ FAST_SPEED_THRESHOLD ≤ vs.sum / (vs.length : ℚ))
    ∧ (speedLabel vs = "slow" ↔ vs.sum / (vs.length : ℚ) ≤ SLOW_SPEED_THRESHOLD)
    ∧ (speedLabel vs = "normal" ↔
        (SLOW_SPEED_THRESHOLD < vs.sum / (vs.length : ℚ)
          ∧ vs.sum / (vs.length : ℚ) < FAST_SPEED_THRESHOLD)) := by
  have hne : vs.isEmpty = false := by
    cases vs with
    | nil => exact absurd rfl h
    | cons v w => rfl
  have ha : avgSpeed vs = vs.sum / (vs.length : ℚ) := by
    unfold avgSpeed
    rw [hne]
    simp
  unfold speedLabel
  rw [ha]
  unfold FAST_SPEED_THRESHOLD SLOW_SPEED_THRESHOLD
  set a : ℚ := vs.sum / (vs.length : ℚ) with hadef
  split_ifs with h1 h2
  · exact ⟨⟨fun _ => h1, fun _ => rfl⟩,
      ⟨fun hc => absurd hc (by decide), fun hle => absurd (le_trans h1 hle) (by norm_num)⟩,
      ⟨fun hc => absurd hc (by decide), fun hcc => absurd h1 (not_le.mpr hcc.2)⟩⟩
  · exact ⟨⟨fun hc => absurd hc (by decide), fun hf => absurd hf h1⟩,
      ⟨fun _ => h2, fun _ => rfl⟩,
      ⟨fun hc => absurd hc (by decide), fun hcc => absurd h2 (not_le.mpr hcc.1)⟩⟩
  · exact ⟨⟨fun hc => absurd hc (by decide), fun hf => absurd hf h1⟩,
      ⟨fun hc => absurd hc (by decide), fun hs => absurd hs h2⟩,
      ⟨fun _ => ⟨not_le.mp h2, not_le.mp h1⟩, fun _ => rfl⟩⟩

/-- C3 witness: both inclusive boundaries, instantiated concretely. -/
theorem speedLabel_thresholds_w :
    speedLabel [(60 : ℚ)] = "slow" ∧ speedLabel [(150 : ℚ)] = "fast" := by
  constructor
  · exact ((speedLabel_thresholds [60] (by decide)).2.1).mpr (by norm_num [SLOW_SPEED_THRESHOLD])
  · exact ((speedLabel_thresholds [150] (by decide)).1).mpr (by norm_num [FAST_SPEED_THRESHOLD])

/-- C4: a track not matched in the association step (no candidate, or its
minimum-distance candidate is beyond the threshold) has `misses` incremented by
exactly 1 and survives, unchanged apart from the increment and with its stale
`last_detection`, if and only if the incremented value does not exceed
`TRACK_MAX_MISSES`; otherwise it is dropped. -/
theorem stepTrack_unmatched (d : Dist) (t : Track) (pool : List Cand)
    (h : ∀ idx c dist, bestMatch d t.position pool = some (idx, c, dist) →
      TRACK_DISTANCE_THRESHOLD < dist) :
    stepTrack d t pool = (agedTrack t, pool)
    ∧ agedTrack t =
        (if t.misses + 1 ≤ TRACK_MAX_MISSES then some { t with misses := t.misses + 1 }
         else none)
    ∧ (agedTrack t = none ↔ TRACK_MAX_MISSES < t.misses + 1) := by
  refine ⟨?_, rfl, ?_⟩
  · unfold stepTrack
    rcases hbm : bestMatch d t.position pool with _ | ⟨idx, c, dist⟩
    · rfl
    · have hgt := h idx c dist hbm
      simp [not_le.mpr hgt]
  · unfold agedTrack
    split_ifs with h1
    · simp
      omega
    · simp
      omega

/-- C4 witness: with an empty pool, a track at `misses = 9` survives the frame
at `misses = 10`; a track at `misses = 10` is evicted (would end at 11). -/
theorem stepTrack_unmatched_w :
    (stepTrack dL1 { trkA with misses := 9 } []).1 = some { trkA with misses := 10 }
    ∧ (stepTrack dL1 { trkA with misses := 10 } []).1 = none := by
  have h9 := stepTrack_unmatched dL1 { trkA with misses := 9 } []
    (by intro idx c dist hc; simp [bestMatch] at hc)
  have h10 := stepTrack_unmatched dL1 { trkA with misses := 10 } []
    (by intro idx c dist hc; simp [bestMatch] at hc)
  constructor
  · rw [h9.1]
    rfl
  · rw [h10.1]
    rfl

/-- C5: when a track's minimum-distance candidate is within
`TRACK_DISTANCE_THRESHOLD`, the match is committed: `position` becomes the
candidate's centroid, the old-to-new displacement `d c.center t.position` is
appended to `velocity_samples`, `misses` resets to 0, `last_detection` becomes
the matched detection, and the candidate is removed from the pool; and every
candidate still in the pool once no tracks remain becomes a new track with its
centroid as position, empty `velocity_samples`, `misses = 0` and its detection
as `last_detection`. -/
theorem stepTrack_matched (d : Dist) (t : Track) (pool : List Cand)
    (idx : ℕ) (c : Cand) (dist : ℚ)
    (hb : bestMatch d t.position pool = some (idx, c, dist))
    (hd : dist ≤ TRACK_DISTANCE_THRESHOLD) :
    stepTrack d t pool =
      (some { position := c.center,
              velocity_samples := t.velocity_samples ++ [d c.center t.position],
              misses := 0,
              last_detection := some c.det }, pool.eraseIdx idx)
    ∧ ∀ cs : List Cand, associate d [] cs =
        cs.map fun c2 =>
          { position := c2.center, velocity_samples := [], misses := 0,
            last_detection := some c2.det } := by
  constructor
  · unfold stepTrack
    rw [hb]
    simp [hd]
  · intro cs
    rfl

/-- C5 witness: `trkA` at `(60, 0)` matches the sole candidate (centroid
`(10, 0)`, distance 50 within the threshold); displacement 50 is appended,
misses reset, `last_detection` overwritten, pool emptied. -/
theorem stepTrack_matched_w :
    stepTrack dL1 trkA (mkCands [exBox]) =
      (some { position := (10, 0), velocity_samples := [50], misses := 0,
              last_detection := some exBox }, []) := by
  have hc : mkCands [exBox] = [{ tag := 0, det := exBox, center := (10, 0) }] := by
    simp only [mkCands, List.enum_cons, List.enumFrom_nil, List.map_cons, List.map_nil]
    norm_num [centroid, exBox]
  have hdv : dL1 (10, 0) trkA.position = 50 := by
    norm_num [dL1, trkA]
  have hb : bestMatch dL1 trkA.position (mkCands [exBox]) =
      some (0, { tag := 0, det := exBox, center := (10, 0) }, 50) := by
    rw [hc]
    simp [bestMatch, hdv]
  have h := stepTrack_matched dL1 trkA (mkCands [exBox]) 0
    { tag := 0, det := exBox, center := (10, 0) } 50 hb
    (by norm_num [TRACK_DISTANCE_THRESHOLD])
  rw [h.1, hc]
  simp [trkA, List.eraseIdx]
  norm_num [dL1]

/-- Unfolding equation for `claimedTags` on a track-cons. -/
lemma claimedTags_cons (d : Dist) (t : Track) (ts : List Track) (pool : List Cand) :
    claimedTags d (t :: ts) pool =
      match bestMatch d t.position pool with
      | some (idx, c, dist) =>
        if dist ≤ TRACK_DISTANCE_THRESHOLD then c.tag :: claimedTags d ts (pool.eraseIdx idx)
        else claimedTags d ts pool
      | none => claimedTags d ts pool := rfl

/-- Unfolding equation for `bestMatch` on a candidate-cons. -/
lemma bestMatch_cons (d : Dist) (pos : Point) (a : Cand) (rest : List Cand) :
    bestMatch d pos (a :: rest) =
      match bestMatch d pos rest with
      | none => some (0, a, d a.center pos)
      | some (j, b, db) =>
        if db < d a.center pos then some (j + 1, b, db)
        else some (0, a, d a.center pos) := rfl

/-- The candidate returned by `bestMatch` is the pool element at the returned
index. -/
lemma bestMatch_getElem (d : Dist) (pos : Point) :
    ∀ (pool : List Cand) (i : ℕ) (c : Cand) (dist : ℚ),
      bestMatch d pos pool = some (i, c, dist) → pool[i]? = some c := by
  intro pool
  induction pool with
  | nil => intro i c dist hbm; simp [bestMatch] at hbm
  | cons a rest ih =>
    intro i c dist hbm
    rw [bestMatch_cons] at hbm
    rcases hrest : bestMatch d pos rest with _ | ⟨j, b, db⟩
    · simp only [hrest, Option.some.injEq, Prod.mk.injEq] at hbm
      obtain ⟨hi, hc, _⟩ := hbm
      subst hi
      subst hc
      simp
    · simp only [hrest] at hbm
      by_cases hlt : db < d a.center pos
      · simp only [if_pos hlt, Option.some.injEq, Prod.mk.injEq] at hbm
        obtain ⟨hi, hc, hdb⟩ := hbm
        subst hi
        subst hc
        simpa using ih j b db hrest
      · simp only [if_neg hlt, Option.some.injEq, Prod.mk.injEq] at hbm
        obtain ⟨hi, hc, _⟩ := hbm
        subst hi
        subst hc
        simp

/-- Mapping tags commutes with removing the element at an index. -/
lemma tags_eraseIdx : ∀ (l : List Cand) (i : ℕ),
    (l.eraseIdx i).map Cand.tag = (l.map Cand.tag).eraseIdx i := by
  intro l
  induction l with
  | nil => intro i; rfl
  | cons a rest ih =>
    intro i
    cases i with
    | zero => rfl
    | succ j => simp [List.eraseIdx, ih j]

/-- In a duplicate-free list, the element at index `i` does not occur in the
list with index `i` erased. -/
lemma not_mem_eraseIdx_of_nodup : ∀ (l : List ℕ) (i : ℕ) (a : ℕ),
    l[i]? = some a → l.Nodup → a ∉ l.eraseIdx i := by
  intro l
  induction l with
  | nil => intro i a hget; simp at hget
  | cons b rest ih =>
    intro i a hget hnd
    cases i with
    | zero =>
      simp at hget
      subst hget
      simpa [List.eraseIdx] using (List.nodup_cons.mp hnd).1
    | succ j =>
      simp at hget
      have hmem : a ∈ rest := List.getElem?_mem hget
      have hne : a ≠ b := by
        intro hab
        exact (List.nodup_cons.mp hnd).1 (hab ▸ hmem)
      simp [List.eraseIdx]
      exact ⟨hne, ih j a hget (List.nodup_cons.mp hnd).2⟩

/-- Every claimed tag comes from the candidate pool. -/
lemma claimedTags_subset (d : Dist) :
    ∀ (tracks : List Track) (pool : List Cand) (x : ℕ),
      x ∈ claimedTags d tracks pool → x ∈ pool.map Cand.tag := by
  intro tracks
  induction tracks with
  | nil => intro pool x hx; simp [claimedTags] at hx
  | cons t ts ih =>
    intro pool x hx
    rw [claimedTags_cons] at hx
    rcases hbm : bestMatch d t.position pool with _ | ⟨idx, c, dist⟩
    · simp only [hbm] at hx
      exact ih pool x hx
    · simp only [hbm] at hx
      by_cases hd : dist ≤ TRACK_DISTANCE_THRESHOLD
      · rw [if_pos hd] at hx
        rcases List.mem_cons.mp hx with hx | hx
        · subst hx
          have := bestMatch_getElem d t.position pool idx c dist hbm
          exact List.mem_map_of_mem Cand.tag (List.getElem?_mem this)
        · have hsub : ((pool.eraseIdx idx).map Cand.tag).Sublist (pool.map Cand.tag) :=
            List.Sublist.map Cand.tag (List.eraseIdx_sublist pool idx)
          exact hsub.subset (ih (pool.eraseIdx idx) x hx)
      · rw [if_neg hd] at hx
        exact ih pool x hx

/-- When the pool's tags are duplicate-free so is the list of claimed tags:
each committed match erases its candidate from the pool seen by later tracks. -/
lemma claimedTags_nodup (d : Dist) :
    ∀ (tracks : List Track) (pool : List Cand),
      (pool.map Cand.tag).Nodup → (claimedTags d tracks pool).Nodup := by
  intro tracks
  induction tracks with
  | nil => intro pool hnd; simp [claimedTags]
  | cons t ts ih =>
    intro pool hnd
    rw [claimedTags_cons]
    rcases hbm : bestMatch d t.position pool with _ | ⟨idx, c, dist⟩
    · simp only [hbm]
      exact ih pool hnd
    · simp only [hbm]
      by_cases hd : dist ≤ TRACK_DISTANCE_THRESHOLD
      · rw [if_pos hd]
        have hget := bestMatch_getElem d t.position pool idx c dist hbm
        have hnd' : ((pool.eraseIdx idx).map Cand.tag).Nodup :=
          (List.Sublist.map Cand.tag (List.eraseIdx_sublist pool idx)).nodup hnd
        refine List.nodup_cons.mpr ⟨?_, ih (pool.eraseIdx idx) hnd'⟩
        intro hmem
        have hx := claimedTags_subset d ts (pool.eraseIdx idx) c.tag hmem
        rw [tags_eraseIdx] at hx
        have hget' : (pool.map Cand.tag)[idx]? = some c.tag := by
          rw [List.getElem?_map, hget]
          rfl
        exact not_mem_eraseIdx_of_nodup (pool.map Cand.tag) idx c.tag hget' hnd hx
      · rw [if_neg hd]
        exact ih pool hnd

/-- C6: association matching is one-to-one — when the candidates have pairwise
distinct identities, the tags claimed by the tracks (in iteration order) are
pairwise distinct and all drawn from the pool — and the tie-break is greedy by
track iteration order: concretely, with one candidate at centroid `(10, 0)`,
the first track `trkA` (distance 50) claims it and the later track `trkB`
(distance 10, strictly smaller) cannot match it and takes a miss instead. -/
theorem associate_one_to_one (d : Dist) (tracks : List Track) (pool : List Cand)
    (h : (pool.map Cand.tag).Nodup) :
    (claimedTags d tracks pool).Nodup
    ∧ (∀ x ∈ claimedTags d tracks pool, x ∈ pool.map Cand.tag)
    ∧ associate dL1 [trkA, trkB] (mkCands [exBox]) =
        [{ position := (10, 0), velocity_samples := [50], misses := 0,
           last_detection := some exBox },
         { trkB with misses := 1 }] := by
  refine ⟨claimedTags_nodup d tracks pool h, claimedTags_subset d tracks pool, ?_⟩
  have hc : mkCands [exBox] = [{ tag := 0, det := exBox, center := (10, 0) }] := by
    simp only [mkCands, List.enum_cons, List.enumFrom_nil, List.map_cons, List.map_nil]
    norm_num [centroid, exBox]
  rw [hc]
  have hda : dL1 (10, 0) trkA.position = 50 := by norm_num [dL1, trkA]
  have hb1 : bestMatch dL1 trkA.position [{ tag := 0, det := exBox, center := (10, 0) }] =
      some (0, { tag := 0, det := exBox, center := (10, 0) }, 50) := by
    rw [show bestMatch dL1 trkA.position [{ tag := 0, det := exBox, center := (10, 0) }] =
      some (0, { tag := 0, det := exBox, center := (10, 0) },
        dL1 (10, 0) trkA.position) from rfl, hda]
  have hstepA : stepTrack dL1 trkA [{ tag := 0, det := exBox, center := (10, 0) }] =
      (some { position := (10, 0), velocity_samples := [50], misses := 0,
              last_detection := some exBox }, []) := by
    unfold stepTrack
    simp only [hb1]
    rw [if_pos (by norm_num [TRACK_DISTANCE_THRESHOLD] : (50 : ℚ) ≤ TRACK_DISTANCE_THRESHOLD)]
    show ((some { position := (10, 0),
                  velocity_samples := trkA.velocity_samples ++ [dL1 (10, 0) trkA.position],
                  misses := 0, last_detection := some exBox } : Option Track),
          ([] : List Cand)) =
        ((some { position := (10, 0), velocity_samples := [50], misses := 0,
                 last_detection := some exBox } : Option Track), ([] : List Cand))
    rw [show trkA.velocity_samples = [] from rfl, List.nil_append, hda]
  have hstepB : stepTrack dL1 trkB [] = (some { trkB with misses := 1 }, []) := rfl
  simp only [associate, hstepA, hstepB, List.map_nil]

/-- C6 witness: the one-to-one property instantiated on the concrete greedy
example (pool tags `[0]`, duplicate-free). -/
theorem associate_one_to_one_w :
    (claimedTags dL1 [trkA, trkB] (mkCands [exBox])).Nodup :=
  (associate_one_to_one dL1 [trkA, trkB] (mkCands [exBox])
    (by simp [mkCands, List.enum_cons, exBox])).1

/-- Projections of a single frame step: `total_frames` always increments,
`total_detections` grows by the frame's detection count. -/
lemma processFrame_counters (d : Dist) (s : RunState) (dets : List Det) :
    (processFrame d s dets).total_frames = s.total_frames + 1
    ∧ (processFrame d s dets).total_detections = s.total_detections + dets.length := by
  cases dets with
  | nil => exact ⟨rfl, rfl⟩
  | cons a l => exact ⟨rfl, rfl⟩

/-- Projection of a single frame step: the report list grows by one entry for
a frame with detections while under the cap, and is otherwise unchanged. -/
lemma processFrame_reported (d : Dist) (s : RunState) (dets : List Det) :
    (processFrame d s dets).reported_frames =
      if dets.isEmpty then s.reported_frames
      else if s.reported_frames.length < MAX_REPORTED_FRAMES then
        s.reported_frames ++
          [{ frame_index := s.total_frames, count := dets.length, boxes := dets }]
      else s.reported_frames := by
  cases dets with
  | nil => rfl
  | cons a l => rfl

/-- Projection of a single frame step: the track store is untouched on a
detection-free frame and otherwise replaced by the association result. -/
lemma processFrame_tracks (d : Dist) (s : RunState) (dets : List Det) :
    (processFrame d s dets).tracks =
      if dets.isEmpty then s.tracks else associate d s.tracks (mkCands dets) := by
  cases dets with
  | nil => rfl
  | cons a l => rfl

/-- Accumulation of `total_frames` and `total_detections` over the frame loop,
from an arbitrary starting state. -/
lemma runLoop_counters (d : Dist) :
    ∀ (frames : List (List Det)) (s : RunState),
      (runLoop d s frames).total_frames = s.total_frames + frames.length
      ∧ (runLoop d s frames).total_detections =
          s.total_detections + (frames.map List.length).sum := by
  intro frames
  induction frames with
  | nil => intro s; exact ⟨by simp [runLoop], by simp [runLoop]⟩
  | cons f rest ih =>
    intro s
    have hstep : runLoop d s (f :: rest) = runLoop d (processFrame d s f) rest := rfl
    rw [hstep]
    obtain ⟨h1, h2⟩ := ih (processFrame d s f)
    obtain ⟨hc1, hc2⟩ := processFrame_counters d s f
    constructor
    · rw [h1, hc1]
      simp
      omega
    · rw [h2, hc2]
      simp
      omega

/-- Characterization of the report list after the frame loop, from an
arbitrary starting state under the cap: the reports already present, followed
by one report per detection-carrying frame (indexed from the starting
`total_frames`), truncated to the room left under `MAX_REPORTED_FRAMES`. -/
lemma runLoop_reported (d : Dist) :
    ∀ (frames : List (List Det)) (s : RunState),
      s.reported_frames.length ≤ MAX_REPORTED_FRAMES →
      (runLoop d s frames).reported_frames =
        s.reported_frames ++
          (((List.enumFrom s.total_frames frames).filter
              (fun p => !p.2.isEmpty)).take
            (MAX_REPORTED_FRAMES - s.reported_frames.length)).map
            (fun p => { frame_index := p.1, count := p.2.length, boxes := p.2 }) := by
  intro frames
  induction frames with
  | nil => intro s hs; simp [runLoop]
  | cons f rest ih =>
    intro s hs
    have hstep : runLoop d s (f :: rest) = runLoop d (processFrame d s f) rest := rfl
    rw [hstep, List.enumFrom_cons]
    obtain ⟨hc1, _⟩ := processFrame_counters d s f
    have hrep := processFrame_reported d s f
    by_cases hemp : f.isEmpty
    · rw [if_pos hemp] at hrep
      have := ih (processFrame d s f) (by rw [hrep]; exact hs)
      rw [this, hrep, hc1]
      simp [hemp]
    · rw [if_neg hemp] at hrep
      by_cases hcap : s.reported_frames.length < MAX_REPORTED_FRAMES
      · rw [if_pos hcap] at hrep
        have hlen : (processFrame d s f).reported_frames.length =
            s.reported_frames.length + 1 := by
          rw [hrep]
          simp
        have hih := ih (processFrame d s f) (by omega)
        rw [hih, hrep, hc1]
        have hroom2 : MAX_REPORTED_FRAMES - s.reported_frames.length =
            (MAX_REPORTED_FRAMES - (s.reported_frames.length + 1)) + 1 := by omega
        rw [hroom2]
        simp [hemp, List.take_succ_cons, List.append_assoc]
      · rw [if_neg hcap] at hrep
        have hfull : s.reported_frames.length = MAX_REPORTED_FRAMES := by omega
        have := ih (processFrame d s f) (by rw [hrep]; exact hs)
        rw [this, hrep, hc1, hfull]
        simp [hemp]

/-- C7: over any run, the report list is exactly the first
`MAX_REPORTED_FRAMES` detection-carrying frames, each recorded with its
0-based frame index and its detection count; hence it never exceeds 50 entries
and every entry has at least one detection, while `total_detections` sums the
detections of every frame, capped or not. -/
theorem reported_frames_capped (d : Dist) (frames : List (List Det)) :
    (runLoop d initState frames).reported_frames =
      ((frames.enum.filter (fun p => !p.2.isEmpty)).take MAX_REPORTED_FRAMES).map
        (fun p => { frame_index := p.1, count := p.2.length, boxes := p.2 })
    ∧ (runLoop d initState frames).reported_frames.length ≤ MAX_REPORTED_FRAMES
    ∧ (∀ r ∈ (runLoop d initState frames).reported_frames, 1 ≤ r.count)
    ∧ (runLoop d initState frames).total_detections = (frames.map List.length).sum := by
  have hrep := runLoop_reported d frames initState (by simp [initState, MAX_REPORTED_FRAMES])
  have hrep' : (runLoop d initState frames).reported_frames =
      ((frames.enum.filter (fun p => !p.2.isEmpty)).take MAX_REPORTED_FRAMES).map
        (fun p => { frame_index := p.1, count := p.2.length, boxes := p.2 }) := by
    rw [hrep]
    simp [initState, List.enum_eq_enumFrom]
  refine ⟨hrep', ?_, ?_, ?_⟩
  · rw [hrep']
    calc (((frames.enum.filter (fun p => !p.2.isEmpty)).take MAX_REPORTED_FRAMES).map
          (fun p => ({ frame_index := p.1, count := p.2.length, boxes := p.2 } :
            FrameReport))).length
        = ((frames.enum.filter (fun p => !p.2.isEmpty)).take MAX_REPORTED_FRAMES).length :=
          List.length_map _ _
      _ ≤ MAX_REPORTED_FRAMES := by
          rw [List.length_take]
          exact min_le_left _ _
  · intro r hr
    rw [hrep'] at hr
    obtain ⟨p, hp, hpr⟩ := List.mem_map.mp hr
    have hpf := List.mem_of_mem_take hp
    have hne := (List.mem_filter.mp hpf).2
    have : p.2 ≠ [] := by
      intro hnil
      rw [hnil] at hne
      simp at hne
    have hpos : 0 < p.2.length := List.length_pos.mpr this
    rw [← hpr]
    exact hpos
  · have := (runLoop_counters d frames initState).2
    rw [this]
    simp [initState]

/-- C7 witness: the per-entry positivity applied to the concrete one-frame run
with a single detection. -/
theorem reported_frames_capped_w :
    1 ≤ (⟨0, 1, [exBox]⟩ : FrameReport).count := by
  refine (reported_frames_capped dL1 [[exBox]]).2.2.1 ⟨0, 1, [exBox]⟩ ?_
  rw [(reported_frames_capped dL1 [[exBox]]).1]
  simp [exBox, MAX_REPORTED_FRAMES, List.enum_cons]

/-- C8: if the frame loop ends with `total_frames = 0`, the pipeline raises
`ValueError` with the no-usable-frames message instead of returning a summary;
it never returns a summary in that case. -/
theorem zero_frames_error (d : Dist) (frames : List (List Det))
    (h : (runLoop d initState frames).total_frames = 0) :
    detectAndAnnotate d frames =
      Except.error "No frames detected; the uploaded file may be corrupted."
    ∧ ∀ summary : RunSummary, detectAndAnnotate d frames ≠ Except.ok summary := by
  constructor
  · unfold detectAndAnnotate
    rw [if_pos h]
  · intro summary hsum
    unfold detectAndAnnotate at hsum
    rw [if_pos h] at hsum
    exact Except.noConfusion hsum

/-- C8 witness: a source decoding to zero frames yields the error, not a
summary. -/
theorem zero_frames_error_w :
    detectAndAnnotate dL1 [] =
      Except.error "No frames detected; the uploaded file may be corrupted." :=
  (zero_frames_error dL1 [] rfl).1

/-- Unfolding equation for `associate` on a track-cons. -/
lemma associate_cons (d : Dist) (t : Track) (ts : List Track) (pool : List Cand) :
    associate d (t :: ts) pool =
      match stepTrack d t pool with
      | (some t', pool') => t' :: associate d ts pool'
      | (none, pool') => associate d ts pool' := rfl

/-- A track surviving `stepTrack` either carries a freshly matched detection or
keeps the input track's `last_detection` unchanged, and in either case its
`misses` counter is within `TRACK_MAX_MISSES`. -/
lemma stepTrack_survivor (d : Dist) (t : Track) (pool : List Cand) (t' : Track)
    (h : (stepTrack d t pool).1 = some t') :
    (t'.last_detection.isSome ∨ t'.last_detection = t.last_detection)
    ∧ t'.misses ≤ TRACK_MAX_MISSES := by
  unfold stepTrack at h
  rcases hbm : bestMatch d t.position pool with _ | ⟨idx, c, dist⟩
  · simp only [hbm] at h
    unfold agedTrack at h
    by_cases hm : t.misses + 1 ≤ TRACK_MAX_MISSES
    · rw [if_pos hm] at h
      obtain rfl := Option.some.inj h
      exact ⟨Or.inr rfl, hm⟩
    · rw [if_neg hm] at h
      exact Option.noConfusion h
  · simp only [hbm] at h
    by_cases hd : dist ≤ TRACK_DISTANCE_THRESHOLD
    · rw [if_pos hd] at h
      simp only at h
      obtain rfl := Option.some.inj h
      exact ⟨Or.inl rfl, by simp [TRACK_MAX_MISSES]⟩
    · rw [if_neg hd] at h
      simp only at h
      unfold agedTrack at h
      by_cases hm : t.misses + 1 ≤ TRACK_MAX_MISSES
      · rw [if_pos hm] at h
        obtain rfl := Option.some.inj h
        exact ⟨Or.inr rfl, hm⟩
      · rw [if_neg hm] at h
        exact Option.noConfusion h

/-- Every track in an association result has a `last_detection` (when every
input track did) and a `misses` counter within `TRACK_MAX_MISSES`
(unconditionally). -/
lemma associate_invariants (d : Dist) :
    ∀ (tracks : List Track) (pool : List Cand),
      (∀ t ∈ tracks, t.last_detection.isSome) →
      ∀ t' ∈ associate d tracks pool,
        t'.last_detection.isSome ∧ t'.misses ≤ TRACK_MAX_MISSES := by
  intro tracks
  induction tracks with
  | nil =>
    intro pool hall t' ht'
    simp only [associate] at ht'
    obtain ⟨c, _, rfl⟩ := List.mem_map.mp ht'
    exact ⟨rfl, by simp [newTrack, TRACK_MAX_MISSES]⟩
  | cons t ts ih =>
    intro pool hall t' ht'
    rw [associate_cons] at ht'
    rcases hst : stepTrack d t pool with ⟨o, pool'⟩
    cases o with
    | none =>
      simp only [hst] at ht'
      exact ih pool' (fun u hu => hall u (List.mem_cons_of_mem t hu)) t' ht'
    | some u =>
      simp only [hst] at ht'
      rcases List.mem_cons.mp ht' with rfl | hmem
      · have hs := stepTrack_survivor d t pool t' (by rw [hst])
        refine ⟨?_, hs.2⟩
        rcases hs.1 with hsome | heq
        · exact hsome
        · rw [heq]
          exact hall t (List.mem_cons_self t ts)
      · exact ih pool' (fun u hu => hall u (List.mem_cons_of_mem t hu)) t' hmem

/-- The run-level invariant: from a state whose tracks all satisfy both track
invariants, every state reached by the frame loop satisfies them too. -/
lemma runLoop_track_invariants (d : Dist) :
    ∀ (frames : List (List Det)) (s : RunState),
      (∀ t ∈ s.tracks, t.last_detection.isSome ∧ t.misses ≤ TRACK_MAX_MISSES) →
      ∀ t ∈ (runLoop d s frames).tracks,
        t.last_detection.isSome ∧ t.misses ≤ TRACK_MAX_MISSES := by
  intro frames
  induction frames with
  | nil => intro s hall; exact hall
  | cons f rest ih =>
    intro s hall
    have hstep : runLoop d s (f :: rest) = runLoop d (processFrame d s f) rest := rfl
    rw [hstep]
    refine ih (processFrame d s f) ?_
    intro t ht
    rw [processFrame_tracks] at ht
    by_cases hemp : f.isEmpty
    · rw [if_pos hemp] at ht
      exact hall t ht
    · rw [if_neg hemp] at ht
      have hsome := associate_invariants d s.tracks (mkCands f)
        (fun u hu => (hall u hu).1) t ht
      exact hsome

/-- Every track with a present `last_detection` contributes exactly one drawn
box, so the annotator skips nothing. -/
lemma annotate_length (tracks : List Track)
    (h : ∀ t ∈ tracks, t.last_detection.isSome) :
    (annotate tracks).length = tracks.length := by
  induction tracks with
  | nil => rfl
  | cons t ts ih =>
    have hts := ih (fun u hu => h u (List.mem_cons_of_mem t hu))
    have hsome := h t (List.mem_cons_self t ts)
    obtain ⟨det, hdet⟩ := Option.isSome_iff_exists.mp hsome
    unfold annotate at hts ⊢
    rw [List.filterMap_cons, hdet]
    simp [hts]

/-- C9: every track ever present in the store of a reachable loop state has a
`last_detection` (set at creation, overwritten on every match, never cleared),
so the annotator's defensive skip branch never fires: it draws exactly one box
per stored track. -/
theorem tracks_have_last_detection (d : Dist) (frames : List (List Det)) :
    (∀ t ∈ (runLoop d initState frames).tracks, t.last_detection.isSome)
    ∧ (annotate (runLoop d initState frames).tracks).length
        = (runLoop d initState frames).tracks.length := by
  have hinv := runLoop_track_invariants d frames initState
    (by intro t ht; simp [initState] at ht)
  exact ⟨fun t ht => (hinv t ht).1, annotate_length _ (fun t ht => (hinv t ht).1)⟩

/-- C9 witness: the invariant applied to the track spawned by a concrete
one-frame run. -/
theorem tracks_have_last_detection_w :
    (newTrack { tag := 0, det := exBox, center := (10, 0) }).last_detection.isSome := by
  refine (tracks_have_last_detection dL1 [[exBox]]).1
    (newTrack { tag := 0, det := exBox, center := (10, 0) }) ?_
  have hc : mkCands [exBox] = [{ tag := 0, det := exBox, center := (10, 0) }] := by
    simp only [mkCands, List.enum_cons, List.enumFrom_nil, List.map_cons, List.map_nil]
    norm_num [centroid, exBox]
  show newTrack { tag := 0, det := exBox, center := (10, 0) } ∈
    (processFrame dL1 initState [exBox]).tracks
  rw [processFrame_tracks]
  rw [if_neg (by simp : ¬([exBox] : List Det).isEmpty = true)]
  rw [show initState.tracks = [] from rfl, hc]
  show _ ∈ [newTrack { tag := 0, det := exBox, center := (10, 0) }]
  exact List.mem_singleton.mpr rfl

/-- C10: at every frame boundary of every run, every stored track satisfies
`misses ≤ TRACK_MAX_MISSES` (the lower bound `0 ≤ misses` is inherent to the
ℕ-valued counter): new tracks start at 0, matched tracks reset to 0, and aged
tracks are kept only while within the bound. -/
theorem misses_invariant (d : Dist) (frames : List (List Det)) :
    (∀ t ∈ (runLoop d initState frames).tracks, t.misses ≤ TRACK_MAX_MISSES)
    ∧ (∀ c : Cand, (newTrack c).misses = 0) := by
  have hinv := runLoop_track_invariants d frames initState
    (by intro t ht; simp [initState] at ht)
  exact ⟨fun t ht => (hinv t ht).2, fun c => rfl⟩

/-- C10 witness: the bound applied to the track spawned by a concrete
one-frame run. -/
theorem misses_invariant_w :
    (newTrack { tag := 0, det := exBox, center := (10, 0) }).misses
      ≤ TRACK_MAX_MISSES := by
  refine (misses_invariant dL1 [[exBox]]).1
    (newTrack { tag := 0, det := exBox, center := (10, 0) }) ?_
  have hc : mkCands [exBox] = [{ tag := 0, det := exBox, center := (10, 0) }] := by
    simp only [mkCands, List.enum_cons, List.enumFrom_nil, List.map_cons, List.map_nil]
    norm_num [centroid, exBox]
  show newTrack { tag := 0, det := exBox, center := (10, 0) } ∈
    (processFrame dL1 initState [exBox]).tracks
  rw [processFrame_tracks]
  rw [if_neg (by simp : ¬([exBox] : List Det).isEmpty = true)]
  rw [show initState.tracks = [] from rfl, hc]
  show _ ∈ [newTrack { tag := 0, det := exBox, center := (10, 0) }]
  exact List.mem_singleton.mpr rfl

end PedDetect
